import Mathlib

/-!
Verification of the inventory system (`inventory_system.py`).

The module keeps a global mapping `stock_data : dict[str, int]` and exposes
`add_item`, `remove_item`, `get_qty`, `check_low_items`, `save_data` and
`load_data`.  A Python `dict` preserves insertion order: assigning to an
existing key keeps its position, assigning a fresh key appends it, and
`del` removes the entry.  We embed the mapping as an insertion-ordered
association list and each operation as a pure function on it; raising an
exception to the caller is embedded as `Except`/`Option`, and an exception
that the code catches internally is embedded by a `_core` function whose
error the wrapper discards.
-/

namespace InventorySystem

/-- The in-memory store: insertion-ordered list of `(item, quantity)` pairs,
mirroring the Python `dict[str, int]` named `stock_data`. -/
abbrev Inventory := List (String × Int)

/-- `d.get(k)` / `d[k]` read on a Python dict: value of the first (only)
entry whose key is `k`. -/
def lookup : Inventory → String → Option Int
  | [], _ => none
  | (k, v) :: rest, item => if k = item then some v else lookup rest item

/-- `d[k] = v` on a Python dict: overwrite in place if the key is present,
otherwise append the new entry at the end. -/
def setKey : Inventory → String → Int → Inventory
  | [], item, v => [(item, v)]
  | (k, w) :: rest, item, v =>
      if k = item then (k, v) :: rest else (k, w) :: setKey rest item v

/-- `del d[k]` on a Python dict: drop the entry with key `k`. -/
def delKey : Inventory → String → Inventory
  | [], _ => []
  | (k, w) :: rest, item => if k = item then rest else (k, w) :: delKey rest item

/-- The keys of the mapping, in insertion order. -/
def keys (inv : Inventory) : List String := inv.map Prod.fst

/-- Well-formedness a Python dict guarantees by construction: no duplicate keys. -/
abbrev WF (inv : Inventory) : Prop := (keys inv).Nodup

/-- Python's `str.strip()` with no argument: drop leading and trailing
whitespace characters (embedded over the string's character list so that
it evaluates by kernel reduction). -/
def strip (s : String) : String :=
  ⟨((s.data.dropWhile Char.isWhitespace).reverse.dropWhile
      Char.isWhitespace).reverse⟩

/-- `add_item(item, qty)`: rejects a name that is empty after stripping
(warning logged, state unchanged), otherwise
`stock_data[item] = stock_data.get(item, 0) + qty`.  The `isinstance`
checks of the source are discharged by the types of the embedding. -/
def add_item (inv : Inventory) (item : String) (qty : Int) : Inventory :=
  if (strip item).data.isEmpty then inv
  else setKey inv item ((lookup inv item).getD 0 + qty)

/-- The body of the `try` block of `remove_item(item, qty)`: raises
`ValueError` (embedded as `Except.error`) when `qty` is negative;
on an absent item returns unchanged; otherwise subtracts and deletes the
entry when the new quantity is `≤ 0`. -/
def remove_item_core (inv : Inventory) (item : String) (qty : Int) :
    Except String Inventory :=
  if qty < 0 then Except.error "qty must be a non-negative int"
  else
    match lookup inv item with
    | none => Except.ok inv
    | some current =>
        let new_qty := current - qty
        if new_qty ≤ 0 then Except.ok (delKey inv item)
        else Except.ok (setKey inv item new_qty)

/-- `remove_item(item, qty)` as the caller sees it: the `except` clause
catches the `ValueError`, logs it and returns with the state unchanged. -/
def remove_item (inv : Inventory) (item : String) (qty : Int) : Inventory :=
  match remove_item_core inv item qty with
  | Except.error _ => inv
  | Except.ok s => s

/-- `get_qty(item)`: `return stock_data[item]` — `none` embeds the
`KeyError` raised to the caller on a missing key; no default value. -/
def get_qty (inv : Inventory) (item : String) : Option Int :=
  lookup inv item

/-- `check_low_items(threshold)`: raises `ValueError` (embedded as
`Except.error`, propagated) on a negative threshold, otherwise collects in
iteration order the names whose quantity is strictly below the threshold. -/
def check_low_items (inv : Inventory) (threshold : Int) :
    Except String (List String) :=
  if threshold < 0 then Except.error "threshold must be a non-negative int"
  else Except.ok ((inv.filter (fun p => p.2 < threshold)).map Prod.fst)

/-! ### JSON persistence

`save_data` runs `json.dump(stock_data, f, ensure_ascii=False, indent=2)`
and `load_data` runs `stock_data = json.load(f)`.  The two stdlib calls
are embedded as a character-level printer and parser: the printer follows
CPython's encoder (2-space indent, `ensure_ascii=False` so only `"`, `\`
and control characters are escaped), the parser models `json.load` on the
JSON fragment this program persists — an object with integer values —
including whitespace, all string escapes the encoder can emit, and the
rejection of trailing non-whitespace data. -/

/-- Decimal digit character, `chr(48 + n)` for `n < 10`. -/
def digitChar (n : Nat) : Char := Char.ofNat (48 + n)

/-- Lowercase hexadecimal digit character, as CPython's `\uXXXX` escapes use. -/
def hexDigitChar (n : Nat) : Char :=
  if n < 10 then Char.ofNat (48 + n) else Char.ofNat (87 + n)

/-- Decimal digits of a natural number, most significant first. -/
def natDigits (n : Nat) : List Char :=
  if _h : n < 10 then [digitChar n]
  else natDigits (n / 10) ++ [digitChar (n % 10)]
termination_by n
decreasing_by exact Nat.div_lt_self (by omega) (by omega)

/-- `repr` of a Python int as the JSON encoder writes it. -/
def intChars (v : Int) : List Char :=
  if v < 0 then '-' :: natDigits (-v).toNat else natDigits v.toNat

/-- One character of a JSON string, as CPython's encoder writes it with
`ensure_ascii=False`: short escapes for `"`, `\` and the usual control
characters, `\u00XX` for the remaining control characters, everything
else literal. -/
def escapeChar (c : Char) : List Char :=
  if c = '"' then ['\\', '"']
  else if c = '\\' then ['\\', '\\']
  else if c = Char.ofNat 8 then ['\\', 'b']
  else if c = Char.ofNat 9 then ['\\', 't']
  else if c = Char.ofNat 10 then ['\\', 'n']
  else if c = Char.ofNat 12 then ['\\', 'f']
  else if c = Char.ofNat 13 then ['\\', 'r']
  else if c.toNat < 32 then
    ['\\', 'u', '0', '0', hexDigitChar (c.toNat / 16), hexDigitChar (c.toNat % 16)]
  else [c]

/-- A JSON string literal: quoted, character-wise escaped. -/
def encodeString (s : String) : List Char :=
  '"' :: (s.data.flatMap escapeChar ++ ['"'])

/-- One `  "key": value` line of the indented object. -/
def dumpEntry (p : String × Int) : List Char :=
  ' ' :: ' ' :: (encodeString p.1 ++ ':' :: ' ' :: intChars p.2)

/-- The serialized object, exactly as `json.dump` with `indent=2` writes
it: entries separated by `,\n`, braces on their own lines, `\x7b\x7d` for
the empty mapping. -/
def dumpInv : Inventory → List Char
  | [] => ['{', '}']
  | e :: es =>
      '{' :: '\n' :: (dumpEntry e ++
        (es.flatMap (fun p => ',' :: '\n' :: dumpEntry p)) ++ ['\n', '}'])

/-- `save_data`: the character stream `json.dump` writes to the file. -/
def save_data (inv : Inventory) : List Char := dumpInv inv

/-- The four JSON whitespace characters. -/
def isWsChar (c : Char) : Bool :=
  decide (c = ' ') || decide (c = '\t') || decide (c = '\n') || decide (c = '\x0d')

/-- A decimal digit, by code point. -/
def isDigitChar (c : Char) : Bool :=
  decide (48 ≤ c.toNat) && decide (c.toNat ≤ 57)

/-- Whether a number token ends here: end of input or a non-digit. -/
def stopsNumber : List Char → Bool
  | [] => true
  | c :: _ => !(isDigitChar c)

/-- Skip JSON whitespace. -/
def skipWs : List Char → List Char
  | [] => []
  | c :: rest => if isWsChar c then skipWs rest else c :: rest

/-- Value of one hexadecimal digit. -/
def hexVal (c : Char) : Option Nat :=
  if 48 ≤ c.toNat ∧ c.toNat ≤ 57 then some (c.toNat - 48)
  else if 97 ≤ c.toNat ∧ c.toNat ≤ 102 then some (c.toNat - 87)
  else if 65 ≤ c.toNat ∧ c.toNat ≤ 70 then some (c.toNat - 55)
  else none

/-- Prepend a decoded character to a string-parse result. -/
def consMap (c : Char) :
    Option (List Char × List Char) → Option (List Char × List Char)
  | none => none
  | some (s, r) => some (c :: s, r)

/-- Parse the body of a JSON string literal (after the opening quote) up
to its closing quote, decoding escapes; returns the decoded characters
and the remaining input. -/
def parseStrBody (l : List Char) : Option (List Char × List Char) :=
  match l with
  | [] => none
  | c :: rest =>
    if c = '"' then some ([], rest)
    else if c = '\\' then
      match rest with
      | [] => none
      | e :: rest2 =>
        if e = '"' then consMap '"' (parseStrBody rest2)
        else if e = '\\' then consMap '\\' (parseStrBody rest2)
        else if e = '/' then consMap '/' (parseStrBody rest2)
        else if e = 'b' then consMap (Char.ofNat 8) (parseStrBody rest2)
        else if e = 'f' then consMap (Char.ofNat 12) (parseStrBody rest2)
        else if e = 'n' then consMap (Char.ofNat 10) (parseStrBody rest2)
        else if e = 'r' then consMap (Char.ofNat 13) (parseStrBody rest2)
        else if e = 't' then consMap (Char.ofNat 9) (parseStrBody rest2)
        else if e = 'u' then
          match rest2 with
          | h1 :: h2 :: h3 :: h4 :: rest3 =>
            match hexVal h1, hexVal h2, hexVal h3, hexVal h4 with
            | some a, some b, some c2, some d =>
                consMap (Char.ofNat (((a * 16 + b) * 16 + c2) * 16 + d))
                  (parseStrBody rest3)
            | _, _, _, _ => none
          | _ => none
        else none
    else consMap c (parseStrBody rest)

/-- Consume leading decimal digits, accumulating their value. -/
def parseNatFrom (acc : Nat) : List Char → Nat × List Char
  | [] => (acc, [])
  | c :: rest =>
      if isDigitChar c then parseNatFrom (acc * 10 + (c.toNat - 48)) rest
      else (acc, c :: rest)

/-- Parse a JSON integer (optional minus sign, decimal digits). -/
def parseIntChars (l : List Char) : Option (Int × List Char) :=
  match l with
  | [] => none
  | c :: rest =>
    if c = '-' then
      match rest with
      | [] => none
      | d :: _ =>
        if isDigitChar d then
          match parseNatFrom 0 rest with
          | (n, r) => some (-(n : Int), r)
        else none
    else if isDigitChar c then
      match parseNatFrom 0 (c :: rest) with
      | (n, r) => some ((n : Int), r)
    else none

/-- Parse one `"key": value` member of the object. -/
def parseEntry (l : List Char) : Option ((String × Int) × List Char) :=
  match skipWs l with
  | [] => none
  | c :: rest =>
    if c = '"' then
      match parseStrBody rest with
      | none => none
      | some (key, rest2) =>
        match skipWs rest2 with
        | [] => none
        | c2 :: rest3 =>
          if c2 = ':' then
            match parseIntChars (skipWs rest3) with
            | none => none
            | some (v, rest4) => some ((⟨key⟩, v), rest4)
          else none
    else none

/-- Parse the members after the first one: a `,`-separated tail closed by
`\x7d`.  The fuel argument bounds the number of members and is given as
the input length, which one comma per member always covers. -/
def parseEntriesAux : Nat → List Char → Option (List (String × Int) × List Char)
  | 0, _ => none
  | fuel + 1, l =>
    match skipWs l with
    | [] => none
    | c :: rest =>
      if c = '}' then some ([], rest)
      else if c = ',' then
        match parseEntry rest with
        | none => none
        | some (e, rest2) =>
          match parseEntriesAux fuel rest2 with
          | none => none
          | some (es, rest3) => some (e :: es, rest3)
      else none

/-- Parse a JSON object with integer values, returning its members in
textual order together with the remaining input. -/
def parseTopObject (l : List Char) : Option (List (String × Int) × List Char) :=
  match skipWs l with
  | [] => none
  | c :: rest =>
    if c = '{' then
      match skipWs rest with
      | [] => none
      | c2 :: rest2 =>
        if c2 = '}' then some ([], rest2)
        else
          match parseEntry rest with
          | none => none
          | some (e, rest3) =>
            match parseEntriesAux (rest3.length + 1) rest3 with
            | none => none
            | some (es, rest4) => some (e :: es, rest4)
    else none

/-- Building a Python dict from parsed key-value pairs in textual order: a
repeated key keeps its first position and takes its last value. -/
def dictOfPairs (ps : List (String × Int)) : Inventory :=
  ps.foldl (fun d p => setKey d p.1 p.2) []

/-- `load_data`: `stock_data = json.load(f)` on the given file content;
`none` embeds the propagated failure on malformed input (trailing
non-whitespace rejected, as `json.load` does). -/
def load_data (file : List Char) : Option Inventory :=
  match parseTopObject file with
  | none => none
  | some (ps, rest) =>
      match skipWs rest with
      | [] => some (dictOfPairs ps)
      | _ :: _ => none

/-! ### Basic lemmas about the dict embedding -/

theorem lookup_setKey_self (inv : Inventory) (item : String) (v : Int) :
    lookup (setKey inv item v) item = some v := by
  induction inv with
  | nil => simp [setKey, lookup]
  | cons p rest ih =>
      obtain ⟨k, w⟩ := p
      by_cases h : k = item
      · simp [setKey, lookup, h]
      · simp [setKey, lookup, h, ih]

theorem keys_cons (k : String) (w : Int) (rest : Inventory) :
    keys ((k, w) :: rest) = k :: keys rest := rfl

theorem lookup_setKey_ne (inv : Inventory) (item other : String) (v : Int)
    (h : other ≠ item) : lookup (setKey inv item v) other = lookup inv other := by
  induction inv with
  | nil => simp [setKey, lookup, Ne.symm h]
  | cons p rest ih =>
      obtain ⟨k, w⟩ := p
      by_cases hk : k = item
      · subst hk
        simp [setKey, lookup, Ne.symm h]
      · simp [setKey, lookup, hk, ih]

theorem lookup_eq_none_iff (inv : Inventory) (item : String) :
    lookup inv item = none ↔ item ∉ keys inv := by
  induction inv with
  | nil => simp [lookup, keys]
  | cons p rest ih =>
      obtain ⟨k, w⟩ := p
      by_cases h : k = item
      · simp [lookup, keys_cons, h]
      · simp [lookup, keys_cons, h, ih, Ne.symm h]

theorem lookup_delKey_self (inv : Inventory) (item : String) (hwf : WF inv) :
    lookup (delKey inv item) item = none := by
  induction inv with
  | nil => simp [delKey, lookup]
  | cons p rest ih =>
      obtain ⟨k, w⟩ := p
      obtain ⟨hk, hrest⟩ := List.nodup_cons.mp hwf
      by_cases h : k = item
      · subst h
        have hnone := (lookup_eq_none_iff rest k).mpr hk
        simpa [delKey] using hnone
      · simp [delKey, lookup, h, ih hrest]

theorem lookup_mem (inv : Inventory) (item : String) (q : Int)
    (hwf : WF inv) (hmem : (item, q) ∈ inv) : lookup inv item = some q := by
  induction inv with
  | nil => simp at hmem
  | cons p rest ih =>
      obtain ⟨k, w⟩ := p
      obtain ⟨hk, hrest⟩ := List.nodup_cons.mp hwf
      rcases List.mem_cons.mp hmem with heq | hmem2
      · cases heq
        simp [lookup]
      · have hne : k ≠ item := by
          intro hh
          subst hh
          exact hk (List.mem_map.mpr ⟨(k, q), hmem2, rfl⟩)
        simp [lookup, hne, ih hrest hmem2]

theorem lookup_mem_pair (inv : Inventory) (item : String) (q : Int)
    (h : lookup inv item = some q) : (item, q) ∈ inv := by
  induction inv with
  | nil => simp [lookup] at h
  | cons p rest ih =>
      obtain ⟨k, w⟩ := p
      by_cases hk : k = item
      · subst hk
        simp [lookup] at h
        simp [h]
      · simp [lookup, hk] at h
        exact List.mem_cons_of_mem _ (ih h)

theorem mem_keys_setKey (inv : Inventory) (item a : String) (v : Int) :
    a ∈ keys (setKey inv item v) ↔ a ∈ keys inv ∨ a = item := by
  induction inv with
  | nil => simp [setKey, keys]
  | cons p rest ih =>
      obtain ⟨k, w⟩ := p
      by_cases h : k = item
      · subst h
        simp [setKey, keys_cons, List.mem_cons]
        tauto
      · simp [setKey, h, keys_cons, List.mem_cons, ih]
        tauto

theorem delKey_sublist (inv : Inventory) (item : String) :
    (delKey inv item).Sublist inv := by
  induction inv with
  | nil => simp [delKey]
  | cons p rest ih =>
      obtain ⟨k, w⟩ := p
      by_cases h : k = item
      · simp [delKey, h]
      · simp [delKey, h]
        exact ih

theorem mem_keys_of_lookup_some (inv : Inventory) (item : String) (q : Int)
    (h : lookup inv item = some q) : item ∈ keys inv := by
  by_contra habs
  rw [(lookup_eq_none_iff inv item).mpr habs] at h
  exact Option.noConfusion h

theorem remove_item_core_present (inv : Inventory) (item : String) (qty cur : Int)
    (hcur : lookup inv item = some cur) (hqty : 0 ≤ qty) :
    remove_item_core inv item qty
      = Except.ok (if cur - qty ≤ 0 then delKey inv item
                   else setKey inv item (cur - qty)) := by
  have hneg : ¬qty < 0 := not_lt.mpr hqty
  by_cases hle : cur - qty ≤ 0 <;> simp [remove_item_core, hcur, hneg, hle]

theorem foldl_add_item (item : String) (hitem : ¬(strip item).data.isEmpty)
    (qtys : List Int) :
    ∀ (inv : Inventory) (s : Int), lookup inv item = some s →
      lookup (qtys.foldl (fun st q => add_item st item q) inv) item
        = some (s + qtys.sum) := by
  induction qtys with
  | nil => intro inv s h; simpa using h
  | cons q qtys ih =>
      intro inv s h
      have hstep : lookup (add_item inv item q) item = some (s + q) := by
        simp [add_item, hitem, lookup_setKey_self, h]
      have := ih (add_item inv item q) (s + q) hstep
      simpa [add_comm, add_assoc, add_left_comm] using this

/-! ### Round-trip lemmas for the JSON embedding -/

theorem charToNat_ofNat (n : Nat) (h : n < 55296) : (Char.ofNat n).toNat = n := by
  simp only [Char.ofNat, Char.toNat]
  rw [dif_pos (Or.inl h)]
  simp [Char.ofNatAux, UInt32.toNat, UInt32.ofNat']

theorem hexVal_hexDigitChar : ∀ m, m < 16 → hexVal (hexDigitChar m) = some m := by
  decide

theorem parseStrBody_escape (l rest : List Char) :
    parseStrBody (l.flatMap escapeChar ++ '"' :: rest) = some (l, rest) := by
  induction l with
  | nil =>
      simp only [List.flatMap_nil, List.nil_append]
      conv_lhs => rw [parseStrBody.eq_def]
      simp
  | cons c cs ih =>
      rw [List.flatMap_cons, List.append_assoc]
      by_cases h1 : c = '"'
      · subst h1
        have hesc : escapeChar '"' = ['\\', '"'] := by rw [escapeChar]; simp
        rw [hesc]
        simp only [List.cons_append, List.nil_append]
        conv_lhs => rw [parseStrBody.eq_def]
        simp [consMap, ih]
      · by_cases h2 : c = '\\'
        · subst h2
          have hesc : escapeChar '\\' = ['\\', '\\'] := by rw [escapeChar]; simp
          rw [hesc]
          simp only [List.cons_append, List.nil_append]
          conv_lhs => rw [parseStrBody.eq_def]
          simp [consMap, ih]
        · by_cases h3 : c = Char.ofNat 8
          · subst h3
            have hesc : escapeChar (Char.ofNat 8) = ['\\', 'b'] := by
              rw [escapeChar]; simp
            rw [hesc]
            simp only [List.cons_append, List.nil_append]
            conv_lhs => rw [parseStrBody.eq_def]
            simp [consMap, ih]
          · by_cases h4 : c = Char.ofNat 9
            · subst h4
              have hesc : escapeChar (Char.ofNat 9) = ['\\', 't'] := by
                rw [escapeChar]; simp
              rw [hesc]
              simp only [List.cons_append, List.nil_append]
              conv_lhs => rw [parseStrBody.eq_def]
              simp [consMap, ih]
            · by_cases h5 : c = Char.ofNat 10
              · subst h5
                have hesc : escapeChar (Char.ofNat 10) = ['\\', 'n'] := by
                  rw [escapeChar]; simp
                rw [hesc]
                simp only [List.cons_append, List.nil_append]
                conv_lhs => rw [parseStrBody.eq_def]
                simp [consMap, ih]
              · by_cases h6 : c = Char.ofNat 12
                · subst h6
                  have hesc : escapeChar (Char.ofNat 12) = ['\\', 'f'] := by
                    rw [escapeChar]; simp
                  rw [hesc]
                  simp only [List.cons_append, List.nil_append]
                  conv_lhs => rw [parseStrBody.eq_def]
                  simp [consMap, ih]
                · by_cases h7 : c = Char.ofNat 13
                  · subst h7
                    have hesc : escapeChar (Char.ofNat 13) = ['\\', 'r'] := by
                      rw [escapeChar]; simp
                    rw [hesc]
                    simp only [List.cons_append, List.nil_append]
                    conv_lhs => rw [parseStrBody.eq_def]
                    simp [consMap, ih]
                  · by_cases h8 : c.toNat < 32
                    · have ha : c.toNat / 16 < 16 := by omega
                      have hb : c.toNat % 16 < 16 := by omega
                      have hesc : escapeChar c = ['\\', 'u', '0', '0',
                          hexDigitChar (c.toNat / 16), hexDigitChar (c.toNat % 16)] := by
                        rw [escapeChar]
                        simp [h1, h2, h3, h4, h5, h6, h7, h8]
                      rw [hesc]
                      simp only [List.cons_append, List.nil_append]
                      conv_lhs => rw [parseStrBody.eq_def]
                      have h0 : hexVal '0' = some 0 := by decide
                      simp [h0, hexVal_hexDigitChar _ ha, hexVal_hexDigitChar _ hb,
                        consMap, ih]
                      have harith : c.toNat / 16 * 16 + c.toNat % 16 = c.toNat := by
                        omega
                      rw [harith, Char.ofNat_toNat]
                    · have hesc : escapeChar c = [c] := by
                        rw [escapeChar]
                        simp [h1, h2, h3, h4, h5, h6, h7, h8]
                      rw [hesc]
                      simp only [List.cons_append, List.nil_append]
                      conv_lhs => rw [parseStrBody.eq_def]
                      simp [h1, h2, consMap, ih]

theorem digitChar_toNat (n : Nat) (h : n < 10) : (digitChar n).toNat = 48 + n :=
  charToNat_ofNat (48 + n) (by omega)

theorem digitChar_isDigit (n : Nat) (h : n < 10) :
    isDigitChar (digitChar n) = true := by
  simp [isDigitChar, digitChar_toNat n h]
  omega

theorem natDigits_head (n : Nat) :
    ∃ c cs, natDigits n = c :: cs ∧ isDigitChar c = true := by
  induction n using Nat.strong_induction_on with
  | _ n ih =>
      by_cases h : n < 10
      · refine ⟨digitChar n, [], ?_, digitChar_isDigit n h⟩
        rw [natDigits]
        simp [h]
      · obtain ⟨c, cs, hnd, hdig⟩ :=
          ih (n / 10) (Nat.div_lt_self (by omega) (by omega))
        refine ⟨c, cs ++ [digitChar (n % 10)], ?_, hdig⟩
        rw [natDigits]
        simp [h, hnd]

theorem parseNatFrom_natDigits (n : Nat) : ∀ (acc : Nat) (rest : List Char),
    parseNatFrom acc (natDigits n ++ rest)
      = parseNatFrom (acc * 10 ^ (natDigits n).length + n) rest := by
  induction n using Nat.strong_induction_on with
  | _ n ih =>
      intro acc rest
      by_cases h : n < 10
      · rw [natDigits]
        simp only [h, dite_true, List.singleton_append, List.length_cons,
          List.length_nil]
        rw [parseNatFrom]
        simp [digitChar_isDigit n h, digitChar_toNat n h, parseNatFrom]
      · have hlt : n / 10 < n := Nat.div_lt_self (by omega) (by omega)
        have hd : n % 10 < 10 := Nat.mod_lt _ (by omega)
        conv_lhs => rw [natDigits]
        conv_rhs => rw [natDigits]
        simp only [h, dite_false, List.append_assoc, List.cons_append,
          List.nil_append, List.length_append, List.length_cons, List.length_nil]
        rw [ih (n / 10) hlt acc (digitChar (n % 10) :: rest)]
        rw [parseNatFrom]
        simp only [digitChar_isDigit _ hd, if_true, digitChar_toNat _ hd]
        congr 1
        have hpow : (10 : Nat) ^ ((natDigits (n / 10)).length + (0 + 1))
            = 10 ^ (natDigits (n / 10)).length * 10 := by
          rw [Nat.zero_add, pow_succ]
        rw [hpow, ← Nat.mul_assoc]
        generalize acc * 10 ^ (natDigits (n / 10)).length = m
        omega

theorem parseNatFrom_stop (acc : Nat) (l : List Char)
    (h : stopsNumber l = true) : parseNatFrom acc l = (acc, l) := by
  cases l with
  | nil => rfl
  | cons c rest =>
      simp [stopsNumber] at h
      simp [parseNatFrom, h]

theorem parseNat_of_natDigits (n : Nat) (rest : List Char)
    (h : stopsNumber rest = true) :
    parseNatFrom 0 (natDigits n ++ rest) = (n, rest) := by
  rw [parseNatFrom_natDigits n 0 rest, Nat.zero_mul, Nat.zero_add,
    parseNatFrom_stop _ _ h]

theorem not_dash_of_digit (c : Char) (h : isDigitChar c = true) : c ≠ '-' := by
  intro hc
  subst hc
  exact absurd h (by decide)

theorem parseIntChars_intChars (v : Int) (rest : List Char)
    (h : stopsNumber rest = true) :
    parseIntChars (intChars v ++ rest) = some (v, rest) := by
  by_cases hv : v < 0
  · obtain ⟨c, cs, hnd, hdig⟩ := natDigits_head (-v).toNat
    rw [intChars, if_pos hv, List.cons_append, hnd, List.cons_append]
    conv_lhs => rw [parseIntChars.eq_def]
    simp only [hdig, if_true, reduceIte]
    rw [← List.cons_append, ← hnd, parseNat_of_natDigits _ _ h]
    have hcast : ((-v).toNat : Int) = -v := Int.toNat_of_nonneg (by omega)
    simp [hcast]
  · obtain ⟨c, cs, hnd, hdig⟩ := natDigits_head v.toNat
    rw [intChars, if_neg hv, hnd, List.cons_append]
    conv_lhs => rw [parseIntChars.eq_def]
    simp only [not_dash_of_digit c hdig, if_false, hdig, if_true, reduceIte]
    rw [← List.cons_append, ← hnd, parseNat_of_natDigits _ _ h]
    have hcast : (v.toNat : Int) = v := Int.toNat_of_nonneg (by omega)
    simp [hcast]

theorem skipWs_ws (c : Char) (l : List Char) (h : isWsChar c = true) :
    skipWs (c :: l) = skipWs l := by simp [skipWs, h]

theorem skipWs_not_ws (c : Char) (l : List Char) (h : isWsChar c = false) :
    skipWs (c :: l) = c :: l := by simp [skipWs, h]

theorem not_ws_of_digit (c : Char) (h : isDigitChar c = true) :
    isWsChar c = false := by
  by_contra hws
  simp only [Bool.not_eq_false] at hws
  simp only [isWsChar, Bool.or_eq_true, decide_eq_true_eq] at hws
  rcases hws with ((hc | hc) | hc) | hc <;> (subst hc; exact absurd h (by decide))

theorem skipWs_intChars (v : Int) (l : List Char) :
    skipWs (intChars v ++ l) = intChars v ++ l := by
  by_cases hv : v < 0
  · rw [intChars, if_pos hv, List.cons_append, skipWs_not_ws _ _ (by decide)]
  · obtain ⟨c, cs, hnd, hdig⟩ := natDigits_head v.toNat
    rw [intChars, if_neg hv, hnd, List.cons_append,
      skipWs_not_ws _ _ (not_ws_of_digit c hdig), ← List.cons_append, ← hnd]

theorem mk_data (s : String) : String.mk s.data = s := by
  cases s
  rfl

theorem skipWs_entry (p : String × Int) (X : List Char) :
    skipWs ('\n' :: (dumpEntry p ++ X))
      = '"' :: (p.1.data.flatMap escapeChar
          ++ '"' :: ':' :: ' ' :: (intChars p.2 ++ X)) := by
  obtain ⟨k, v⟩ := p
  simp only [dumpEntry, encodeString, List.cons_append, List.append_assoc]
  rw [skipWs_ws _ _ (by decide), skipWs_ws _ _ (by decide),
    skipWs_ws _ _ (by decide), skipWs_not_ws _ _ (by decide)]
  simp

theorem parseEntry_dump (p : String × Int) (rest : List Char)
    (h : stopsNumber rest = true) :
    parseEntry ('\n' :: dumpEntry p ++ rest) = some (p, rest) := by
  obtain ⟨k, v⟩ := p
  rw [List.cons_append, parseEntry, skipWs_entry (k, v) rest]
  simp [parseStrBody_escape, skipWs_not_ws, skipWs_ws, skipWs_intChars,
    parseIntChars_intChars v rest h, mk_data, isWsChar]

theorem stops_flat (es : List (String × Int)) (rest : List Char) :
    stopsNumber ((es.flatMap (fun p => ',' :: '\n' :: dumpEntry p))
      ++ '\n' :: '}' :: rest) = true := by
  cases es with
  | nil => simp only [List.flatMap_nil, List.nil_append, stopsNumber]; decide
  | cons e es =>
      simp only [List.flatMap_cons, List.cons_append, stopsNumber]
      decide

theorem flat_length_ge (es : List (String × Int)) :
    es.length ≤ (es.flatMap (fun p => ',' :: '\n' :: dumpEntry p)).length := by
  induction es with
  | nil => simp
  | cons e es ih =>
      simp only [List.flatMap_cons, List.length_append, List.length_cons,
        List.length_nil]
      omega

theorem parseEntriesAux_dump (es : List (String × Int)) :
    ∀ (fuel : Nat) (rest : List Char), es.length < fuel →
    parseEntriesAux fuel
        ((es.flatMap (fun p => ',' :: '\n' :: dumpEntry p))
          ++ '\n' :: '}' :: rest)
      = some (es, rest) := by
  induction es with
  | nil =>
      intro fuel rest hfuel
      match fuel, hfuel with
      | f + 1, _ =>
          simp only [List.flatMap_nil, List.nil_append]
          rw [parseEntriesAux, skipWs_ws _ _ (by decide),
            skipWs_not_ws _ _ (by decide)]
          simp
  | cons e es ih =>
      intro fuel rest hfuel
      match fuel, hfuel with
      | f + 1, hf =>
          have hlt : es.length < f := by
            simp only [List.length_cons] at hf
            omega
          simp only [List.flatMap_cons, List.cons_append, List.append_assoc]
          rw [parseEntriesAux, skipWs_not_ws _ _ (by decide)]
          simp only [reduceIte]
          rw [if_neg (by decide : ¬(',' : Char) = '}')]
          rw [← List.cons_append, parseEntry_dump e _ (stops_flat es rest)]
          simp only [ih f rest hlt]

theorem parseTopObject_dump (inv : Inventory) :
    parseTopObject (dumpInv inv) = some (inv, []) := by
  cases inv with
  | nil => rfl
  | cons e es =>
      rw [dumpInv, parseTopObject, skipWs_not_ws _ _ (by decide)]
      simp only [if_pos rfl]
      have hassoc : dumpEntry e
            ++ es.flatMap (fun p => ',' :: '\n' :: dumpEntry p) ++ ['\n', '}']
          = dumpEntry e
            ++ (es.flatMap (fun p => ',' :: '\n' :: dumpEntry p)
                  ++ '\n' :: '}' :: ([] : List Char)) := by
        simp
      rw [hassoc, skipWs_entry e _]
      simp only [reduceIte]
      rw [if_neg (by decide : ¬('"' : Char) = '}')]
      rw [← List.cons_append, parseEntry_dump e _ (stops_flat es [])]
      have hlen : es.length
          < ((es.flatMap fun p => ',' :: '\n' :: dumpEntry p) ++ ['\n', '}']).length
            + 1 := by
        have := flat_length_ge es
        simp only [List.length_append, List.length_cons, List.length_nil]
        omega
      simp only [parseEntriesAux_dump es _ [] hlen]

theorem setKey_absent_append (acc : Inventory) (k : String) (v : Int)
    (h : k ∉ keys acc) : setKey acc k v = acc ++ [(k, v)] := by
  induction acc with
  | nil => rfl
  | cons p rest ih =>
      obtain ⟨k0, w0⟩ := p
      simp only [keys_cons, List.mem_cons] at h
      push_neg at h
      simp [setKey, Ne.symm h.1, ih h.2]

theorem dictOfPairs_foldl (ps : List (String × Int)) :
    ∀ acc : Inventory, (keys (acc ++ ps)).Nodup →
      ps.foldl (fun d p => setKey d p.1 p.2) acc = acc ++ ps := by
  induction ps with
  | nil => intro acc _; simp
  | cons p ps ih =>
      intro acc hnd
      obtain ⟨k, v⟩ := p
      have hkeys : keys (acc ++ (k, v) :: ps) = keys acc ++ k :: keys ps := by
        simp [keys]
      have hk : k ∉ keys acc := by
        intro hmem
        rw [hkeys] at hnd
        exact (List.disjoint_of_nodup_append hnd) hmem (by simp)
      rw [List.foldl_cons, setKey_absent_append acc k v hk]
      have hnd2 : (keys ((acc ++ [(k, v)]) ++ ps)).Nodup := by
        have hre : (acc ++ [(k, v)]) ++ ps = acc ++ (k, v) :: ps := by simp
        rw [hre]
        exact hnd
      rw [ih (acc ++ [(k, v)]) hnd2]
      simp

theorem dictOfPairs_self (ps : List (String × Int))
    (h : (keys ps).Nodup) : dictOfPairs ps = ps := by
  have := dictOfPairs_foldl ps [] (by simpa using h)
  simpa [dictOfPairs] using this

/-! ### Claims -/

/-- C1: for an item name non-empty after trimming and any integer `qty`,
`add` sets the stored quantity to the previous quantity plus `qty`
(creating the entry at `qty` when absent), so a sequence of adds starting
from an absent item leaves `get` returning the cumulative sum. -/
theorem add_then_get_cumulative (inv : Inventory) (item : String) (qty : Int)
    (qtys : List Int) (hitem : ¬(strip item).data.isEmpty) :
    lookup (add_item inv item qty) item = some ((lookup inv item).getD 0 + qty)
    ∧ (lookup inv item = none → qtys ≠ [] →
        get_qty (qtys.foldl (fun st q => add_item st item q) inv) item
          = some qtys.sum) := by
  constructor
  · simp [add_item, hitem, lookup_setKey_self]
  · intro hnone hne
    match qtys, hne with
    | q :: qtys, _ =>
        have hstep : lookup (add_item inv item q) item = some q := by
          simp [add_item, hitem, lookup_setKey_self, hnone]
        have := foldl_add_item item hitem qtys (add_item inv item q) q hstep
        simpa [get_qty] using this

theorem add_then_get_cumulative_check :
    lookup (add_item [] "apple" 5) "apple" = some 5
    ∧ get_qty ([1, 2, 3].foldl (fun st q => add_item st "apple" q) []) "apple"
        = some 6 := by
  have h := add_then_get_cumulative [] "apple" 5 [1, 2, 3] (by decide)
  refine ⟨?_, ?_⟩
  · have h1 := h.1
    simp only [lookup, Option.getD_none, Int.zero_add] at h1
    exact h1
  · have h2 := h.2 rfl (by decide)
    simpa using h2

/-- C2: removing a non-negative `qty` from a present item sets its quantity
to `current - qty`, deleting the entry when the new quantity is `≤ 0` and
updating it otherwise. -/
theorem remove_item_present_spec (inv : Inventory) (item : String)
    (qty cur : Int) (hwf : WF inv) (hcur : lookup inv item = some cur)
    (hqty : 0 ≤ qty) :
    remove_item inv item qty
      = (if cur - qty ≤ 0 then delKey inv item
         else setKey inv item (cur - qty))
    ∧ get_qty (remove_item inv item qty) item
      = (if cur - qty ≤ 0 then none else some (cur - qty)) := by
  have hcore := remove_item_core_present inv item qty cur hcur hqty
  by_cases hle : cur - qty ≤ 0
  · simp [remove_item, get_qty, hcore, hle, lookup_delKey_self inv item hwf]
  · simp [remove_item, get_qty, hcore, hle, lookup_setKey_self]

theorem remove_item_present_check :
    get_qty (remove_item (add_item [] "apple" 10) "apple" 10) "apple" = none := by
  have h := remove_item_present_spec (add_item [] "apple" 10) "apple" 10 10
    (by decide) (by decide) (by decide)
  simpa using h.2

/-- C5: `get` fails exactly on absent items and otherwise returns the
stored quantity; the embedding returns `Option` with no default, mirroring
the uncaught `KeyError`. -/
theorem get_qty_spec (inv : Inventory) (item : String) (hwf : WF inv) :
    (get_qty inv item = none ↔ item ∉ keys inv)
    ∧ ∀ q : Int, (item, q) ∈ inv → get_qty inv item = some q :=
  ⟨lookup_eq_none_iff inv item, fun q hq => lookup_mem inv item q hwf hq⟩

theorem get_qty_spec_check :
    get_qty [("apple", 10)] "banana" = none
    ∧ get_qty [("apple", 10)] "apple" = some 10 := by
  refine ⟨(get_qty_spec [("apple", 10)] "banana" (by decide)).1.mpr ?_, ?_⟩
  · decide
  · exact (get_qty_spec [("apple", 10)] "apple" (by decide)).2 10 (by decide)

/-- C6: with a non-negative threshold, `check_low_items` returns exactly
the names of items with quantity strictly below the threshold, in the
mapping's insertion order (a sublist of the key sequence). -/
theorem check_low_items_spec (inv : Inventory) (threshold : Int)
    (ht : 0 ≤ threshold) :
    ∃ l, check_low_items inv threshold = Except.ok l
      ∧ l.Sublist (keys inv)
      ∧ ∀ name, name ∈ l ↔ ∃ q, (name, q) ∈ inv ∧ q < threshold := by
  refine ⟨(inv.filter (fun p => p.2 < threshold)).map Prod.fst, ?_, ?_, ?_⟩
  · simp [check_low_items, not_lt.mpr ht]
  · exact List.Sublist.map Prod.fst (List.filter_sublist inv)
  · intro name
    constructor
    · intro hmem
      obtain ⟨p, hp, rfl⟩ := List.mem_map.mp hmem
      have hf := List.mem_filter.mp hp
      exact ⟨p.2, by simpa using hf.1, by simpa using hf.2⟩
    · rintro ⟨q, hq, hlt⟩
      exact List.mem_map.mpr ⟨(name, q), List.mem_filter.mpr ⟨hq, by simpa⟩, rfl⟩

theorem check_low_items_spec_check :
    check_low_items [("apple", 10), ("banana", 2)] 5 = Except.ok ["banana"]
    ∧ ∃ l, check_low_items [("apple", 10), ("banana", 2)] 5 = Except.ok l
      ∧ l.Sublist (keys [("apple", 10), ("banana", 2)])
      ∧ ∀ name, name ∈ l ↔
          ∃ q, (name, q) ∈ ([("apple", 10), ("banana", 2)] : Inventory) ∧ q < 5 :=
  ⟨by rfl, check_low_items_spec [("apple", 10), ("banana", 2)] 5 (by decide)⟩

/-- C7: a negative removal quantity raises `ValueError` inside
`remove_item`; the exception is caught by the handler (not propagated) and
the mapping is unchanged. -/
theorem remove_item_invalid_qty (inv : Inventory) (item : String) (qty : Int)
    (h : qty < 0) :
    remove_item_core inv item qty = Except.error "qty must be a non-negative int"
    ∧ remove_item inv item qty = inv := by
  simp [remove_item, remove_item_core, h]

theorem remove_item_invalid_qty_check :
    remove_item_core [("apple", 10)] "apple" (-1)
      = Except.error "qty must be a non-negative int"
    ∧ remove_item [("apple", 10)] "apple" (-1) = [("apple", 10)] :=
  remove_item_invalid_qty [("apple", 10)] "apple" (-1) (by decide)

/-- C8: removing a non-negative quantity of an absent item raises nothing
and leaves the mapping unchanged (the body returns before mutating). -/
theorem remove_item_absent_noop (inv : Inventory) (item : String) (qty : Int)
    (habs : item ∉ keys inv) (hqty : 0 ≤ qty) :
    remove_item_core inv item qty = Except.ok inv
    ∧ remove_item inv item qty = inv := by
  have hnone := (lookup_eq_none_iff inv item).mpr habs
  simp [remove_item, remove_item_core, hnone, not_lt.mpr hqty]

theorem remove_item_absent_noop_check :
    remove_item_core [("apple", 10)] "orange" 1 = Except.ok [("apple", 10)]
    ∧ remove_item [("apple", 10)] "orange" 1 = [("apple", 10)] :=
  remove_item_absent_noop [("apple", 10)] "orange" 1 (by decide) (by decide)

/-- C9: a negative threshold makes `check_low_items` raise `ValueError`,
propagated to the caller (the embedding returns `Except.error` with no
handler); the function never touches the mapping. -/
theorem check_low_items_invalid_threshold (inv : Inventory) (threshold : Int)
    (h : threshold < 0) :
    check_low_items inv threshold
      = Except.error "threshold must be a non-negative int" := by
  simp [check_low_items, h]

theorem check_low_items_invalid_threshold_check :
    check_low_items [("apple", 10)] (-1)
      = Except.error "threshold must be a non-negative int" :=
  check_low_items_invalid_threshold [("apple", 10)] (-1) (by decide)

/-- C10: when the stored quantity is already `≤ 0` (reachable because
`add_item` accepts negative quantities), `remove_item` with `qty = 0`
deletes the entry: the new quantity `current - 0 ≤ 0` takes the deletion
branch. -/
theorem remove_zero_deletes_nonpositive (inv : Inventory) (item : String)
    (q : Int) (hwf : WF inv) (hq : lookup inv item = some q) (hle : q ≤ 0) :
    remove_item inv item 0 = delKey inv item
    ∧ get_qty (remove_item inv item 0) item = none := by
  have hcore := remove_item_core_present inv item 0 q hq (le_refl 0)
  rw [sub_zero] at hcore
  simp [remove_item, get_qty, hcore, hle, lookup_delKey_self inv item hwf]

theorem remove_zero_deletes_nonpositive_check :
    remove_item (add_item [] "apple" (-3)) "apple" 0
      = delKey (add_item [] "apple" (-3)) "apple"
    ∧ get_qty (remove_item (add_item [] "apple" (-3)) "apple" 0) "apple" = none :=
  remove_zero_deletes_nonpositive (add_item [] "apple" (-3)) "apple" (-3)
    (by decide) (by decide) (by decide)

/-- C3: `save_data` followed by `load_data` reproduces exactly the mapping
that existed at save time — same keys, same integer values, same order —
for every dict-representable state (duplicate-free keys). -/
theorem save_load_roundtrip (inv : Inventory) (hwf : WF inv) :
    load_data (save_data inv) = some inv := by
  unfold load_data save_data
  rw [parseTopObject_dump inv]
  simp only [skipWs, dictOfPairs_self inv hwf]

theorem save_load_roundtrip_check :
    load_data (save_data [("apple", 7), ("übergröße", -2)])
      = some [("apple", 7), ("übergröße", -2)] :=
  save_load_roundtrip [("apple", 7), ("übergröße", -2)] (by decide)

/-- C4 as stated is false: `add_item` only checks that the stripped name is
non-empty but stores the name untrimmed, so adding `" apple "` leaves a key
that differs from its own stripped form; and `load_data` validates nothing,
so a file whose object carries the all-whitespace key `" "` loads fine and
even the non-empty-after-stripping part fails after a `load`. -/
theorem keys_trimmed_counterexample :
    keys (add_item [] " apple " 5) = [" apple "]
    ∧ strip " apple " = "apple"
    ∧ " apple " ≠ "apple"
    ∧ load_data ("\x7b\" \": 1\x7d".data) = some [(" ", 1)]
    ∧ strip " " = "" := by
  refine ⟨?_, ?_, ?_, ?_, ?_⟩ <;> decide

theorem mem_keys_remove_item (inv : Inventory) (item : String) (qty : Int)
    (k : String) (hk : k ∈ keys (remove_item inv item qty)) : k ∈ keys inv := by
  rw [remove_item, remove_item_core] at hk
  by_cases hq : qty < 0
  · rw [if_pos hq] at hk
    exact hk
  · rw [if_neg hq] at hk
    cases hl : lookup inv item with
    | none => rw [hl] at hk; exact hk
    | some cur =>
        rw [hl] at hk
        by_cases hle : cur - qty ≤ 0
        · simp only [hle, if_true] at hk
          exact (List.Sublist.map Prod.fst (delKey_sublist inv item)).subset hk
        · simp only [hle, if_false] at hk
          rcases (mem_keys_setKey inv item k _).mp hk with hmem | rfl
          · exact hmem
          · exact mem_keys_of_lookup_some inv k cur hl

/-- C4 amended: every key `add_item` inserts is non-empty after stripping
but is stored untrimmed (it may keep surrounding whitespace), and
`add_item` and `remove_item` preserve the invariant that every key has a
non-empty stripped form; `load_data` performs no key validation, so the
invariant does not extend to it. -/
theorem keys_strip_nonempty_preserved (inv : Inventory) (item : String)
    (qty : Int) (hinv : ∀ k ∈ keys inv, (strip k).data.isEmpty = false) :
    (∀ k ∈ keys (add_item inv item qty), (strip k).data.isEmpty = false)
    ∧ (∀ k ∈ keys (remove_item inv item qty), (strip k).data.isEmpty = false) := by
  constructor
  · intro k hk
    by_cases hstrip : (strip item).data.isEmpty
    · rw [add_item, if_pos hstrip] at hk
      exact hinv k hk
    · rw [add_item, if_neg hstrip] at hk
      rcases (mem_keys_setKey inv item k _).mp hk with hmem | rfl
      · exact hinv k hmem
      · simpa using hstrip
  · intro k hk
    exact hinv k (mem_keys_remove_item inv item qty k hk)

theorem keys_strip_nonempty_preserved_check :
    (∀ k ∈ keys (add_item [("apple", 10)] " pear " 2),
        (strip k).data.isEmpty = false)
    ∧ (∀ k ∈ keys (remove_item [("apple", 10)] " pear " 2),
        (strip k).data.isEmpty = false) :=
  keys_strip_nonempty_preserved [("apple", 10)] " pear " 2 (by decide)

end InventorySystem
